import Mathlib

/-!
Verification of the PoD (Proof-of-Devotion) consensus engine core,
a shallow embedding of src/consensus/pod/pod.go.

Go's int64 arithmetic is modelled by Int; Go's `/` and `%` truncate
toward zero, which is Int.tdiv / Int.tmod. Timestamps carried by blocks
are in seconds (as in core.Block); millisecond values are obtained by
multiplying with SecondInMs, exactly as the source does.
-/

namespace Pod

/-- Modelled from the spec: protocol constant SecondMs = 1000 (the
constants file of the pod package is not under src/). -/
def SecondInMs : Int := 1000

/-- Modelled from the spec: protocol constant BlockIntervalMs = 15000. -/
def BlockIntervalInMs : Int := 15000

/-- Modelled from the spec: protocol constant DynastyIntervalMs = 3600000. -/
def DynastyIntervalInMs : Int := 3600000

/-- Modelled from the spec: protocol constant MinMintDurationMs = 2200. -/
def MinMintDurationInMs : Int := 2200

/-- Modelled from the spec: protocol constant MaxMintDurationMs = 5200. -/
def MaxMintDurationInMs : Int := 5200

/-- Modelled from the spec: protocol constant ConsensusSize = 85, the
number of distinct proposers in one dynasty required to finalize. -/
def ConsensusSize : Nat := 85

/-- Shallow embedding of core.Block as consumed by pod.go: height,
hash (byte slice), timestamp in seconds, the consensus-root proposer and
timestamp, the block miner, and the random-seed presence flag. Hashes are
byte lists; proposer and miner identities are abstracted as Nat (the code
only compares them for equality / uses their hex or string forms as map
keys). -/
structure Block where
  height : Nat
  hash : List Nat
  timestamp : Int
  proposer : Nat
  consensusRootTimestamp : Int
  miner : Nat
  hasRandomSeed : Bool
deriving DecidableEq, Repr

/-- Error kinds surfaced by pod.go (errors.go of the package is not under
src/; the kinds are those referenced by the embedded functions). -/
inductive PodError where
  | invalidBlockTimestamp
  | invalidBlockInterval
  | invalidBlockProposer
  | invalidBlockRandom
  | blockMintedInNextSlot
  | waitingBlockInLastSlot
  | minerNotSignUp
  | noHeartbeatWhenDisable
  | externalFailure (code : Nat)
deriving DecidableEq, Repr

/-- Embedding of lastSlot (pod.go:603): ((nowInMs-SecondInMs)/BlockIntervalInMs)*BlockIntervalInMs
with Go truncated division. -/
def lastSlot (nowInMs : Int) : Int :=
  Int.tdiv (nowInMs - SecondInMs) BlockIntervalInMs * BlockIntervalInMs

/-- Embedding of nextSlot (pod.go:607): ((nowInMs+BlockIntervalInMs-SecondInMs)/BlockIntervalInMs)*BlockIntervalInMs. -/
def nextSlot (nowInMs : Int) : Int :=
  Int.tdiv (nowInMs + BlockIntervalInMs - SecondInMs) BlockIntervalInMs * BlockIntervalInMs

/-- Embedding of deadline (pod.go:611): return nextSlot if more than
MaxMintDurationInMs remains, else nowInMs + MaxMintDurationInMs. -/
def deadline (nowInMs : Int) : Int :=
  let nextSlotInMs := nextSlot nowInMs
  let remainInMs := nextSlotInMs - nowInMs
  if MaxMintDurationInMs > remainInMs then nextSlotInMs
  else nowInMs + MaxMintDurationInMs

/-- Embedding of PoD.checkDeadline (pod.go:620). The tail timestamp is in
seconds and is scaled by SecondInMs as in the source. -/
def checkDeadline (tail : Block) (nowInMs : Int) : Except PodError Int :=
  let lastSlotInMs := lastSlot nowInMs
  let nextSlotInMs := nextSlot nowInMs
  if tail.timestamp * SecondInMs ≥ nextSlotInMs then
    .error .blockMintedInNextSlot
  else if tail.timestamp * SecondInMs = lastSlotInMs then
    .ok (deadline nowInMs)
  else if nextSlotInMs - nowInMs ≤ MinMintDurationInMs then
    .ok (deadline nowInMs)
  else
    .error .waitingBlockInLastSlot

/-- Helper: truncated division of nonnegative operands agrees with Nat
division, and so does the product with the divisor. -/
lemma tdiv_mul_natCast (a b : Nat) :
    Int.tdiv (a : Int) (b : Int) * (b : Int) = ((a / b * b : Nat) : Int) := rfl

/-- Helper: truncated division rounds a small negative numerator to zero. -/
lemma tdiv_small_neg (a : Int) (b : Nat) (h1 : -(b : Int) < a) (h2 : a < 0) :
    Int.tdiv a (b : Int) = 0 := by
  match a with
  | Int.ofNat n =>
    exact absurd h2 (Int.ofNat_nonneg n).not_lt
  | Int.negSucc k =>
    show -(((k+1) / b : Nat) : Int) = 0
    rw [Int.negSucc_eq] at h1
    have hb : k + 1 < b := by omega
    rw [Nat.div_eq_of_lt hb]
    rfl

/-- C7 (counterexample): the claimed bound now_ms ≤ next_slot(now_ms) fails
at now_ms = 15500, where next_slot gives 15000 (times within the first
SecondInMs after a slot boundary are still attributed to that boundary). -/
theorem slots_claim_counterexample :
    ¬ (lastSlot 15500 < 15500 ∧ (15500:Int) ≤ nextSlot 15500 ∧
       BlockIntervalInMs ∣ lastSlot 15500 ∧ BlockIntervalInMs ∣ nextSlot 15500) :=
  fun h => absurd h.2.1 (by decide)

/-- C7 (amended): for every positive now_ms, last_slot(now_ms) < now_ms and
now_ms < next_slot(now_ms) + SecondInMs, and both last_slot(now_ms) and
next_slot(now_ms) are multiples of BlockIntervalInMs. -/
theorem slots_amended_spec (now : Int) (h : 0 < now) :
    lastSlot now < now ∧ now < nextSlot now + SecondInMs ∧
    BlockIntervalInMs ∣ lastSlot now ∧ BlockIntervalInMs ∣ nextSlot now := by
  obtain ⟨m, rfl⟩ : ∃ n : Nat, now = (n : Int) := ⟨now.toNat, (Int.toNat_of_nonneg h.le).symm⟩
  refine ⟨?_, ?_, Dvd.intro_left _ rfl, Dvd.intro_left _ rfl⟩
  · by_cases hm : 1000 ≤ m
    · have e1 : (m : Int) - SecondInMs = ((m - 1000 : Nat) : Int) := by
        simp only [SecondInMs]; omega
      rw [lastSlot, e1, show BlockIntervalInMs = ((15000 : Nat) : Int) from rfl,
        tdiv_mul_natCast]
      have : (m - 1000) / 15000 * 15000 < m := by omega
      exact_mod_cast this
    · have h0 : (0:Int) < (m:Int) := h
      have e0 : lastSlot (m : Int) = 0 := by
        rw [lastSlot, show BlockIntervalInMs = ((15000 : Nat) : Int) from rfl,
          tdiv_small_neg ((m:Int) - SecondInMs) 15000 (by simp only [SecondInMs]; omega)
            (by simp only [SecondInMs]; omega)]
        simp
      rw [e0]; exact h0
  · have e2 : (m : Int) + BlockIntervalInMs - SecondInMs = ((m + 14000 : Nat) : Int) := by
      simp only [SecondInMs, BlockIntervalInMs]; push_cast; omega
    rw [nextSlot, e2, show BlockIntervalInMs = ((15000 : Nat) : Int) from rfl,
      tdiv_mul_natCast]
    have : m < (m + 14000) / 15000 * 15000 + 1000 := by omega
    simp only [SecondInMs]
    exact_mod_cast this

/-- C7 (witness): the amended slot bounds instantiated at now_ms = 16000. -/
theorem slots_amended_witness :
    (0:Int) < 16000 ∧
    (lastSlot 16000 < 16000 ∧ (16000:Int) < nextSlot 16000 + SecondInMs ∧
     BlockIntervalInMs ∣ lastSlot 16000 ∧ BlockIntervalInMs ∣ nextSlot 16000) :=
  ⟨by decide, slots_amended_spec 16000 (by decide)⟩

/-- C8: deadline(now_ms) equals min(next_slot(now_ms), now_ms + MaxMintDurationInMs),
hence deadline(now_ms) ≤ next_slot(now_ms) and
deadline(now_ms) − now_ms ≤ MaxMintDurationInMs. -/
theorem deadline_spec (now : Int) :
    deadline now = min (nextSlot now) (now + MaxMintDurationInMs) ∧
    deadline now ≤ nextSlot now ∧ deadline now - now ≤ MaxMintDurationInMs := by
  by_cases hc : MaxMintDurationInMs > nextSlot now - now <;>
    simp only [deadline, hc, if_true, if_false, ite_true, ite_false] <;>
    rw [min_def] <;> split <;> omega

/-- C3: checkDeadline fails with blockMintedInNextSlot when the tail's
millisecond timestamp is at least next_slot(now_ms); otherwise returns
deadline(now_ms) when it equals last_slot(now_ms); otherwise returns
deadline(now_ms) when next_slot(now_ms) − now_ms ≤ MinMintDurationInMs; and
otherwise fails with waitingBlockInLastSlot. -/
theorem checkDeadline_spec (tail : Block) (now : Int) :
    (tail.timestamp * SecondInMs ≥ nextSlot now →
      checkDeadline tail now = .error .blockMintedInNextSlot) ∧
    (tail.timestamp * SecondInMs < nextSlot now →
      tail.timestamp * SecondInMs = lastSlot now →
      checkDeadline tail now = .ok (deadline now)) ∧
    (tail.timestamp * SecondInMs < nextSlot now →
      tail.timestamp * SecondInMs ≠ lastSlot now →
      nextSlot now - now ≤ MinMintDurationInMs →
      checkDeadline tail now = .ok (deadline now)) ∧
    (tail.timestamp * SecondInMs < nextSlot now →
      tail.timestamp * SecondInMs ≠ lastSlot now →
      MinMintDurationInMs < nextSlot now - now →
      checkDeadline tail now = .error .waitingBlockInLastSlot) := by
  refine ⟨?_, ?_, ?_, ?_⟩ <;> intros <;> simp only [checkDeadline] <;>
    split_ifs <;> first | rfl | (exfalso; omega)

/-- C3 (witness): spec scenario S1, tail minted at 15 s and now_ms = 16000,
yields the deadline min(30000, 16000 + 5200) = 21200. -/
theorem checkDeadline_witness :
    checkDeadline ⟨1, [1], 15, 0, 15, 0, false⟩ 16000 = Except.ok 21200 := by
  rw [(checkDeadline_spec ⟨1, [1], 15, 0, 15, 0, false⟩ 16000).2.1 (by decide) (by decide)]
  exact congrArg Except.ok (by decide)

/-- Shallow model of the hashicorp LRU slot cache mapping a slot timestamp
in seconds to the first block seen at that slot, as an association list.
The bound of 128 entries with LRU eviction is not modelled: the claims
only concern lookup and insertion. -/
def SlotCache : Type := List (Int × Block)

/-- Embedding of lru.Cache.Get on the slot cache. -/
def slotGet (slot : SlotCache) (k : Int) : Option Block :=
  match List.find? (fun e => decide (e.1 = k)) slot with
  | some e => some e.2
  | none => none

/-- Embedding of lru.Cache.Add on the slot cache: stores the block at the
key, replacing any earlier entry at that key. -/
def slotAdd (slot : SlotCache) (k : Int) (v : Block) : SlotCache :=
  (k, v) :: List.filter (fun e => decide (e.1 ≠ k)) slot

/-- Embedding of PoD.CheckDoubleMint (pod.go:337). The Bool is the return
value; the Option records the invocation of reportEvil with the stored
block and the incoming block (none when reportEvil is not invoked). -/
def checkDoubleMint (slot : SlotCache) (block : Block) :
    Bool × Option (Block × Block) :=
  match slotGet slot block.timestamp with
  | some preBlock =>
    if preBlock.hash = block.hash then (false, none)
    else (true, some (preBlock, block))
  | none => (false, none)

/-- C4: checkDoubleMint returns true exactly when the slot cache holds a
block at key block.timestamp whose hash differs from block.hash, and then
reportEvil is invoked on the stored and the new block; it returns false,
without invoking reportEvil, when no entry exists at the key or when the
stored hash equals block.hash. -/
theorem checkDoubleMint_spec (slot : SlotCache) (block : Block) :
    ((checkDoubleMint slot block).1 = true ↔
      ∃ preBlock, slotGet slot block.timestamp = some preBlock ∧
        preBlock.hash ≠ block.hash) ∧
    (∀ preBlock, slotGet slot block.timestamp = some preBlock →
      preBlock.hash ≠ block.hash →
      checkDoubleMint slot block = (true, some (preBlock, block))) ∧
    (∀ preBlock, slotGet slot block.timestamp = some preBlock →
      preBlock.hash = block.hash →
      checkDoubleMint slot block = (false, none)) ∧
    (slotGet slot block.timestamp = none →
      checkDoubleMint slot block = (false, none)) := by
  refine ⟨?_, ?_, ?_, ?_⟩
  · constructor
    · intro h
      unfold checkDoubleMint at h
      match hs : slotGet slot block.timestamp with
      | some preBlock =>
        rw [hs] at h
        by_cases he : preBlock.hash = block.hash
        · simp only [if_pos he] at h; exact absurd h (by simp)
        · exact ⟨preBlock, rfl, he⟩
      | none => rw [hs] at h; exact absurd h (by simp)
    · rintro ⟨preBlock, hget, hne⟩
      simp only [checkDoubleMint, hget, if_neg hne]
  · intro preBlock hget hne
    simp only [checkDoubleMint, hget, if_neg hne]
  · intro preBlock hget he
    simp only [checkDoubleMint, hget, if_pos he]
  · intro hget
    simp only [checkDoubleMint, hget]

/-- C4 (witness): a cache holding a different block at timestamp 15 makes
checkDoubleMint report a double mint; with the same hash or an empty cache
it does not. -/
theorem checkDoubleMint_witness :
    checkDoubleMint [(15, ⟨3, [7], 15, 2, 15, 9, false⟩)] ⟨3, [8], 15, 2, 15, 9, false⟩ =
      (true, some (⟨3, [7], 15, 2, 15, 9, false⟩, ⟨3, [8], 15, 2, 15, 9, false⟩)) ∧
    checkDoubleMint [] ⟨3, [8], 15, 2, 15, 9, false⟩ = (false, none) :=
  ⟨(checkDoubleMint_spec [(15, ⟨3, [7], 15, 2, 15, 9, false⟩)]
      ⟨3, [8], 15, 2, 15, 9, false⟩).2.1 _ (by decide) (by decide),
   (checkDoubleMint_spec [] ⟨3, [8], 15, 2, 15, 9, false⟩).2.2.2 (by decide)⟩

/-- Payload actions of PoD governance transactions (core package,
referenced by pod.go). -/
inductive PodAction where
  | podReport
  | podHeartbeat
  | podState
deriving DecidableEq, Repr

/-- Evil kinds of core.Report (core package, referenced by pod.go). -/
inductive EvilKind where
  | attackDoubleSpend
  | attackNotMiner
deriving DecidableEq, Repr

/-- Embedding of core.Report: the payload submitted in a PoDReport
transaction. -/
structure Report where
  timestamp : Int
  miner : Nat
  evil : EvilKind
deriving DecidableEq, Repr

/-- Record of one call of PoD.sendTransaction: its timestamp, payload
action and report payload (none for heartbeat transactions, whose data is
nil). -/
structure SentTx where
  timestamp : Int
  action : PodAction
  report : Option Report
deriving DecidableEq, Repr

/-- Environment of the PoD engine seen by reportEvil and heartbeat: the
mining-enabled flag, the tail height, the activation-height predicate
core.NodeUpdateAtHeight, the proposer test of the dynasty registry
(pod.dynasty.isProposer applied to the local miner, a function of the
timestamp), and the local miner identity. The last two components live
outside src/ and are abstracted as oracles. -/
structure PodEnv where
  enable : Bool
  tailHeight : Nat
  nodeUpdateAtHeight : Nat → Bool
  isProposerAt : Int → Bool
  minerAddr : Nat

/-- Embedding of PoD.reportEvil (pod.go:353). Returns the PoDReport
transaction handed to sendTransaction, or none when the gates fail or the
local miner is not the scheduled proposer for the conflicting block's
timestamp. -/
def reportEvil (env : PodEnv) (preBlock block : Block) : Option SentTx :=
  if ¬ (env.enable ∧ env.nodeUpdateAtHeight env.tailHeight) then none
  else if env.isProposerAt block.timestamp then
    let evil := if preBlock.miner = block.miner then EvilKind.attackDoubleSpend
      else EvilKind.attackNotMiner
    some { timestamp := block.timestamp, action := .podReport,
           report := some { timestamp := block.timestamp, miner := block.miner,
                            evil := evil } }
  else none

/-- C5: when mining is enabled, the node is at or beyond the activation
height, and the local miner is the scheduled proposer for the conflicting
block's timestamp, reportEvil submits exactly one PoDReport transaction
carrying the current block's timestamp and miner, with evil kind
attackDoubleSpend when the two blocks share a miner and attackNotMiner
otherwise; in all other cases no transaction is submitted. -/
theorem reportEvil_spec (env : PodEnv) (preBlock block : Block) :
    (env.enable = true → env.nodeUpdateAtHeight env.tailHeight = true →
      env.isProposerAt block.timestamp = true →
      reportEvil env preBlock block =
        some { timestamp := block.timestamp, action := .podReport,
               report := some { timestamp := block.timestamp,
                                miner := block.miner,
                                evil := if preBlock.miner = block.miner
                                  then EvilKind.attackDoubleSpend
                                  else EvilKind.attackNotMiner } }) ∧
    (env.enable = false ∨ env.nodeUpdateAtHeight env.tailHeight = false ∨
      env.isProposerAt block.timestamp = false →
      reportEvil env preBlock block = none) := by
  constructor
  · intro he hn hp
    unfold reportEvil
    rw [if_neg (by simp [he, hn]), if_pos hp]
  · intro hor
    unfold reportEvil
    rcases hor with h | h | h
    · rw [if_pos (by simp [h])]
    · rw [if_pos (by simp [h])]
    · by_cases hg : env.enable ∧ env.nodeUpdateAtHeight env.tailHeight = true
      · rw [if_neg (by simp [hg.1, hg.2]), if_neg (by simp [h])]
      · rw [if_pos (by simpa using hg)]

/-- C5 (witness): spec scenario S6 with both gates open; the same-miner
conflict yields a double-spend report, and a disabled node submits
nothing. -/
theorem reportEvil_witness :
    reportEvil ⟨true, 10, fun _ => true, fun _ => true, 5⟩
        ⟨3, [7], 15, 2, 15, 9, false⟩ ⟨3, [8], 15, 2, 15, 9, false⟩ =
      some { timestamp := 15, action := .podReport,
             report := some { timestamp := 15, miner := 9,
                              evil := EvilKind.attackDoubleSpend } } ∧
    reportEvil ⟨false, 10, fun _ => true, fun _ => true, 5⟩
        ⟨3, [7], 15, 2, 15, 9, false⟩ ⟨3, [8], 15, 2, 15, 9, false⟩ = none := by
  constructor
  · have h := (reportEvil_spec ⟨true, 10, fun _ => true, fun _ => true, 5⟩
      ⟨3, [7], 15, 2, 15, 9, false⟩ ⟨3, [8], 15, 2, 15, 9, false⟩).1 rfl rfl rfl
    rw [h]
    decide
  · exact (reportEvil_spec ⟨false, 10, fun _ => true, fun _ => true, 5⟩
      ⟨3, [7], 15, 2, 15, 9, false⟩ ⟨3, [8], 15, 2, 15, 9, false⟩).2 (Or.inl rfl)

/-- Oracles used by PoD.VerifyBlock for the steps implemented outside
src/: the dynasty registry lookup (getDynasty, returning an opaque trie
handle), TraverseDynasty, FindProposer, core.AddressParseFromBytes,
core.RecoverSignerFromSignature and core.RandomAvailableAtHeight. -/
structure VerifyEnv where
  getDynasty : Int → Except PodError Nat
  traverseDynasty : Nat → Except PodError (List Nat)
  findProposer : Int → List Nat → Except PodError Nat
  addressParseFromBytes : Nat → Except PodError Nat
  recoverSignerFromSignature : Block → Except PodError Nat
  randomAvailableAtHeight : Nat → Bool

/-- Embedding of verifyBlockSign (pod.go:315): recover the signer and
compare with the scheduled miner. -/
def verifyBlockSign (env : VerifyEnv) (miner : Nat) (block : Block) :
    Except PodError Unit :=
  match env.recoverSignerFromSignature block with
  | .error e => .error e
  | .ok signer => if miner = signer then .ok () else .error .invalidBlockProposer

/-- Embedding of PoD.VerifyBlock (pod.go:396). Returns the verification
result together with the slot cache after the call; the cache gains the
pair (block.timestamp, block) only when every check passed. -/
def verifyBlock (env : VerifyEnv) (slot : SlotCache) (block : Block) :
    Except PodError Unit × SlotCache :=
  if block.timestamp ≠ block.consensusRootTimestamp then
    (.error .invalidBlockTimestamp, slot)
  else if block.timestamp * SecondInMs ≤ 0 ∨
      Int.tmod (block.timestamp * SecondInMs) BlockIntervalInMs ≠ 0 then
    (.error .invalidBlockInterval, slot)
  else
    match env.getDynasty block.timestamp with
    | .error e => (.error e, slot)
    | .ok cs =>
      match env.traverseDynasty cs with
      | .error e => (.error e, slot)
      | .ok miners =>
        match env.findProposer block.timestamp miners with
        | .error e => (.error e, slot)
        | .ok proposer =>
          match env.addressParseFromBytes proposer with
          | .error e => (.error e, slot)
          | .ok miner =>
            match verifyBlockSign env miner block with
            | .error e => (.error e, slot)
            | .ok _ =>
              if env.randomAvailableAtHeight block.height ∧ ¬ block.hasRandomSeed then
                (.error .invalidBlockRandom, slot)
              else
                (.ok (), slotAdd slot block.timestamp block)

/-- Helper: find? commutes with a filter whose predicate is implied by the
search predicate. -/
lemma find_of_filter_imp {a : Type} (p q : a → Bool) (l : List a)
    (h : ∀ e, p e = true → q e = true) :
    List.find? p (List.filter q l) = List.find? p l := by
  induction l with
  | nil => rfl
  | cons x t ih =>
    by_cases hq : q x = true
    · rw [List.filter_cons_of_pos hq]
      by_cases hp : p x = true
      · rw [List.find?_cons_of_pos _ hp, List.find?_cons_of_pos _ hp]
      · rw [List.find?_cons_of_neg _ (by simpa using hp),
          List.find?_cons_of_neg _ (by simpa using hp), ih]
    · have hp : ¬ p x = true := fun hpx => hq (h x hpx)
      rw [List.filter_cons_of_neg (by simpa using hq),
        List.find?_cons_of_neg _ (by simpa using hp), ih]

/-- Helper: a lookup in the cache after slotAdd either hits the newly
stored pair or an entry that was already present. -/
lemma slotGet_slotAdd (slot : SlotCache) (k k' : Int) (v bl : Block) :
    slotGet (slotAdd slot k v) k' = some bl →
    slotGet slot k' = some bl ∨ (k' = k ∧ bl = v) := by
  intro h
  by_cases hk : k' = k
  · subst hk
    right
    refine ⟨rfl, ?_⟩
    unfold slotGet slotAdd at h
    rw [List.find?_cons_of_pos _ (by simp)] at h
    simpa using h.symm
  · left
    unfold slotGet slotAdd at h
    unfold slotGet
    rw [List.find?_cons_of_neg _ (by simpa using fun hb : k = k' => hk hb.symm),
      find_of_filter_imp _ _ _
        (fun e hpe => by
          simp only [decide_eq_true_eq] at hpe ⊢
          omega)] at h
    exact h

/-- Helper: verifyBlock either leaves the slot cache untouched, or
succeeds and stores the verified block at its timestamp. -/
lemma verifyBlock_cases (env : VerifyEnv) (slot : SlotCache) (block : Block) :
    (verifyBlock env slot block).2 = slot ∨
    verifyBlock env slot block = (.ok (), slotAdd slot block.timestamp block) := by
  unfold verifyBlock
  by_cases h1 : block.timestamp ≠ block.consensusRootTimestamp
  · rw [if_pos h1]; exact Or.inl rfl
  · rw [if_neg h1]
    by_cases h2 : block.timestamp * SecondInMs ≤ 0 ∨
        Int.tmod (block.timestamp * SecondInMs) BlockIntervalInMs ≠ 0
    · rw [if_pos h2]; exact Or.inl rfl
    · rw [if_neg h2]
      rcases hd : env.getDynasty block.timestamp with e | cs <;> simp only [hd]
      · exact Or.inl trivial
      rcases ht : env.traverseDynasty cs with e | miners <;> simp only [ht]
      · exact Or.inl trivial
      rcases hf : env.findProposer block.timestamp miners with e | proposer <;>
        simp only [hf]
      · exact Or.inl trivial
      rcases ha : env.addressParseFromBytes proposer with e | miner <;>
        simp only [ha]
      · exact Or.inl trivial
      rcases hs : verifyBlockSign env miner block with e | u <;> simp only [hs]
      · exact Or.inl trivial
      by_cases hr : env.randomAvailableAtHeight block.height ∧ ¬ block.hasRandomSeed
      · rw [if_pos hr]; exact Or.inl rfl
      · rw [if_neg hr]; exact Or.inr rfl

/-- C6: verifyBlock fails with invalidBlockTimestamp when the block
timestamp differs from its consensus-root timestamp; fails with
invalidBlockInterval when the millisecond timestamp is nonpositive or not
a multiple of BlockIntervalInMs; leaves the slot cache unchanged on every
error; and any entry readable after the call was either already present or
is the verified block stored at its own timestamp as key. -/
theorem verifyBlock_spec (env : VerifyEnv) (slot : SlotCache) (block : Block) :
    (block.timestamp ≠ block.consensusRootTimestamp →
      verifyBlock env slot block = (.error .invalidBlockTimestamp, slot)) ∧
    (block.timestamp = block.consensusRootTimestamp →
      (block.timestamp * SecondInMs ≤ 0 ∨
        Int.tmod (block.timestamp * SecondInMs) BlockIntervalInMs ≠ 0) →
      verifyBlock env slot block = (.error .invalidBlockInterval, slot)) ∧
    (∀ e, (verifyBlock env slot block).1 = .error e →
      (verifyBlock env slot block).2 = slot) ∧
    (∀ k bl, slotGet (verifyBlock env slot block).2 k = some bl →
      slotGet slot k = some bl ∨
        (k = block.timestamp ∧ bl = block ∧ bl.timestamp = k)) := by
  refine ⟨?_, ?_, ?_, ?_⟩
  · intro hne
    unfold verifyBlock
    rw [if_pos hne]
  · intro heq hint
    unfold verifyBlock
    rw [if_neg (by simpa using heq), if_pos hint]
  · intro e he
    rcases verifyBlock_cases env slot block with h | h
    · exact h
    · rw [h] at he
      exact absurd he (by simp)
  · intro k bl hget
    rcases verifyBlock_cases env slot block with h | h
    · rw [h] at hget
      exact Or.inl hget
    · rw [h] at hget
      rcases slotGet_slotAdd slot block.timestamp k block bl hget with hin | ⟨hk, hv⟩
      · exact Or.inl hin
      · exact Or.inr ⟨hk, hv, by rw [hv, hk]⟩

/-- C6 (witness): a block whose timestamp disagrees with its
consensus-root timestamp is rejected with invalidBlockTimestamp; one with
timestamp 0 is rejected with invalidBlockInterval; and after a successful
verification the stored entry is the block at its own timestamp. -/
theorem verifyBlock_witness :
    verifyBlock ⟨fun _ => .ok 0, fun _ => .ok [], fun _ _ => .ok 0,
        fun p => .ok p, fun _ => .ok 0, fun _ => false⟩ []
        ⟨3, [7], 15, 2, 16, 9, false⟩ = (.error .invalidBlockTimestamp, []) ∧
    verifyBlock ⟨fun _ => .ok 0, fun _ => .ok [], fun _ _ => .ok 0,
        fun p => .ok p, fun _ => .ok 0, fun _ => false⟩ []
        ⟨3, [7], 0, 2, 0, 9, false⟩ = (.error .invalidBlockInterval, []) ∧
    (slotGet [] 15 = some ⟨3, [7], 15, 2, 15, 9, false⟩ ∨
      ((15:Int) = (15:Int) ∧ (⟨3, [7], 15, 2, 15, 9, false⟩ : Block) =
        ⟨3, [7], 15, 2, 15, 9, false⟩ ∧
        (⟨3, [7], 15, 2, 15, 9, false⟩ : Block).timestamp = 15)) := by
  refine ⟨?_, ?_, ?_⟩
  · exact (verifyBlock_spec _ [] ⟨3, [7], 15, 2, 16, 9, false⟩).1 (by decide)
  · exact (verifyBlock_spec _ [] ⟨3, [7], 0, 2, 0, 9, false⟩).2.1 (by decide)
      (by decide)
  · exact (verifyBlock_spec ⟨fun _ => .ok 0, fun _ => .ok [], fun _ _ => .ok 0,
      fun p => .ok p, fun _ => .ok 0, fun _ => false⟩ []
      ⟨3, [7], 15, 2, 15, 9, false⟩).2.2.2 15 ⟨3, [7], 15, 2, 15, 9, false⟩
      (by decide)

/-- Observable effects of PoD.setLib, in the order the source performs
them: persist the LIB hash to storage, move the chain's LIB pointer,
remove the hash from the reversible cache, and trigger the TopicLibBlock
event (whose data is the string form of the chain's LIB after the move,
hence the new block). -/
inductive LibEffect where
  | storeLIBHashToStorage (b : Block)
  | setLIBPointer (b : Block)
  | removeReversible (h : List Nat)
  | triggerLibBlockEvent (b : Block)
deriving DecidableEq, Repr

/-- State touched by setLib: the chain's LIB pointer and the reversible
cache of block hashes. -/
structure LibState where
  lib : Block
  reversible : List (List Nat)
deriving DecidableEq, Repr

/-- Embedding of PoD.setLib (pod.go:272). storeOk models whether
chain.StoreLIBHashToStorage succeeds; on failure the function returns
before touching any state. The effect trace records the operations in
source order. -/
def setLib (storeOk : Bool) (st : LibState) (block : Block) :
    LibState × List LibEffect :=
  if storeOk then
    ({ lib := block,
       reversible := List.filter (fun h => decide (h ≠ block.hash)) st.reversible },
     [.storeLIBHashToStorage block, .setLIBPointer block,
      .removeReversible block.hash, .triggerLibBlockEvent block])
  else (st, [])

/-- C9: when persistence fails, setLib leaves the LIB pointer and the
reversible cache unchanged and performs no removal and no event trigger;
when persistence succeeds, the effect trace is exactly persistence, then
the LIB pointer move, then the reversible-cache removal, then the
TopicLibBlock event — persistence strictly before removal and emission. -/
theorem setLib_spec (storeOk : Bool) (st : LibState) (block : Block) :
    (storeOk = false →
      (setLib storeOk st block).1 = st ∧ (setLib storeOk st block).2 = []) ∧
    (storeOk = true →
      (setLib storeOk st block).1.lib = block ∧
      (setLib storeOk st block).2 =
        [.storeLIBHashToStorage block, .setLIBPointer block,
         .removeReversible block.hash, .triggerLibBlockEvent block] ∧
      (setLib storeOk st block).2.get? 0 = some (.storeLIBHashToStorage block) ∧
      (setLib storeOk st block).2.get? 2 = some (.removeReversible block.hash) ∧
      (setLib storeOk st block).2.get? 3 = some (.triggerLibBlockEvent block)) := by
  constructor
  · intro h
    subst h
    exact ⟨rfl, rfl⟩
  · intro h
    subst h
    exact ⟨rfl, rfl, rfl, rfl, rfl⟩

/-- C9 (witness): setLib on a concrete state, with failing and succeeding
persistence. -/
theorem setLib_witness :
    ((setLib false ⟨⟨0, [0], 0, 0, 0, 0, false⟩, [[5]]⟩ ⟨1, [5], 15, 2, 15, 9, false⟩).1 =
        ⟨⟨0, [0], 0, 0, 0, 0, false⟩, [[5]]⟩ ∧
      (setLib false ⟨⟨0, [0], 0, 0, 0, 0, false⟩, [[5]]⟩ ⟨1, [5], 15, 2, 15, 9, false⟩).2 = []) ∧
    (setLib true ⟨⟨0, [0], 0, 0, 0, 0, false⟩, [[5]]⟩ ⟨1, [5], 15, 2, 15, 9, false⟩).1.lib =
      ⟨1, [5], 15, 2, 15, 9, false⟩ :=
  ⟨(setLib_spec false ⟨⟨0, [0], 0, 0, 0, 0, false⟩, [[5]]⟩
      ⟨1, [5], 15, 2, 15, 9, false⟩).1 rfl,
   ((setLib_spec true ⟨⟨0, [0], 0, 0, 0, 0, false⟩, [[5]]⟩
      ⟨1, [5], 15, 2, 15, 9, false⟩).2 rfl).1⟩

/-- Environment of PoD.heartbeat beyond PodEnv: the participants list
returned by the dynasty registry (pod.dynasty.getParticipants, outside
src/, abstracted as an oracle result) and the result of sendTransaction. -/
structure HeartbeatEnv where
  enable : Bool
  tailHeight : Nat
  nodeUpdateAtHeight : Nat → Bool
  minerAddr : Nat
  participants : Except PodError (List Nat)
  sendResult : Except PodError Unit

/-- Embedding of PoD.heartbeat (pod.go:775). Takes the current launchBeat
flag and the tick time in seconds; returns the updated launchBeat flag,
the function result, and the heartbeat transaction handed to
sendTransaction (none when no send was attempted). -/
def heartbeat (env : HeartbeatEnv) (launchBeat : Bool) (now : Int) :
    Bool × Except PodError Unit × Option SentTx :=
  if ¬ env.enable then (launchBeat, .error .noHeartbeatWhenDisable, none)
  else if ¬ env.nodeUpdateAtHeight env.tailHeight then (launchBeat, .ok (), none)
  else if launchBeat ∧
      Int.tmod (now * SecondInMs + Int.tdiv DynastyIntervalInMs 2)
        DynastyIntervalInMs ≠ 0 then
    (launchBeat, .ok (), none)
  else
    match env.participants with
    | .error e => (true, .error e, none)
    | .ok participants =>
      if env.minerAddr ∈ participants then
        (true, env.sendResult,
         some { timestamp := now, action := .podHeartbeat, report := none })
      else (true, .error .minerNotSignUp, none)

/-- C10: once heartbeat passes the enable and activation-height gates with
launchBeat still false, the flag is set to true regardless of how the
send attempt ends (participants error, miner not signed up, or a send
error); and with the flag already true, a tick that is not a dynasty
midpoint returns nil without attempting any send — so a failed first
heartbeat is not retried on the next tick. -/
theorem heartbeat_spec (env : HeartbeatEnv) (launchBeat : Bool) (now : Int) :
    (env.enable = true → env.nodeUpdateAtHeight env.tailHeight = true →
      launchBeat = false →
      (heartbeat env launchBeat now).1 = true) ∧
    (env.enable = true → env.nodeUpdateAtHeight env.tailHeight = true →
      launchBeat = true →
      Int.tmod (now * SecondInMs + Int.tdiv DynastyIntervalInMs 2)
        DynastyIntervalInMs ≠ 0 →
      heartbeat env launchBeat now = (true, .ok (), none)) := by
  constructor
  · intro he hn hl
    subst hl
    unfold heartbeat
    rw [if_neg (by simp [he]), if_neg (by simp [hn]),
      if_neg (by simp)]
    rcases hp : env.participants with e | participants
    · simp only [hp]
    · simp only [hp]
      by_cases hm : env.minerAddr ∈ participants
      · rw [if_pos hm]
      · rw [if_neg hm]
  · intro he hn hl hmod
    subst hl
    unfold heartbeat
    rw [if_neg (by simp [he]), if_neg (by simp [hn]), if_pos (by simp [hmod])]

/-- C10 (witness): with gates open and an empty participants list the
first call still flips launchBeat to true even though it fails with
minerNotSignUp; afterwards a non-midpoint tick is a silent no-op. -/
theorem heartbeat_witness :
    (heartbeat ⟨true, 10, fun _ => true, 5, .ok [], .ok ()⟩ false 16).1 = true ∧
    heartbeat ⟨true, 10, fun _ => true, 5, .ok [], .ok ()⟩ true 16 =
      (true, .ok (), none) :=
  ⟨(heartbeat_spec ⟨true, 10, fun _ => true, 5, .ok [], .ok ()⟩ false 16).1
      rfl rfl rfl,
   (heartbeat_spec ⟨true, 10, fun _ => true, 5, .ok [], .ok ()⟩ true 16).2
      rfl rfl rfl (by decide)⟩

/-- Modelled from the spec: byteutils.Less, the lexicographic order on
hash byte slices used by the fork-choice tie-break (byteutils is outside
src/). -/
def byteLess : List Nat → List Nat → Bool
  | [], [] => false
  | [], _ :: _ => true
  | _ :: _, [] => false
  | a :: as, b :: bs => if a < b then true else if b < a then false else byteLess as bs

/-- Helper: byteLess is irreflexive. -/
lemma byteLess_irrefl : ∀ as : List Nat, byteLess as as = false := by
  intro as
  induction as with
  | nil => rfl
  | cons a t ih =>
    simp only [byteLess, lt_irrefl, if_false, ite_false]
    exact ih

/-- Helper: byteLess is transitive. -/
lemma byteLess_trans : ∀ as bs cs : List Nat,
    byteLess as bs = true → byteLess bs cs = true → byteLess as cs = true := by
  intro as
  induction as with
  | nil =>
    intro bs cs h1 h2
    cases bs with
    | nil => exact absurd h1 (by simp [byteLess])
    | cons b bt =>
      cases cs with
      | nil => exact absurd h2 (by simp [byteLess])
      | cons c ct => rfl
  | cons a t ih =>
    intro bs cs h1 h2
    cases bs with
    | nil => exact absurd h1 (by simp [byteLess])
    | cons b bt =>
      cases cs with
      | nil => exact absurd h2 (by simp [byteLess])
      | cons c ct =>
        simp only [byteLess] at h1 h2 ⊢
        by_cases hab : a < b
        · by_cases hbc : b < c
          · rw [if_pos (by omega : a < c)]
          · rw [if_neg hbc] at h2
            by_cases hcb : c < b
            · rw [if_pos hcb] at h2
              exact absurd h2 (by simp)
            · have hbe : b = c := by omega
              rw [if_pos (by omega : a < c)]
        · rw [if_neg hab] at h1
          by_cases hba : b < a
          · rw [if_pos hba] at h1
            exact absurd h1 (by simp)
          · rw [if_neg hba] at h1
            have hae : a = b := by omega
            subst hae
            by_cases hac : a < c
            · rw [if_pos hac]
            · rw [if_neg hac] at h2 ⊢
              by_cases hca : c < a
              · rw [if_pos hca] at h2
                exact absurd h2 (by simp)
              · rw [if_neg hca] at h2 ⊢
                exact ih bt ct h1 h2

/-- Helper: two byte strings neither of which is below the other are
equal. -/
lemma byteLess_asymm_eq : ∀ as bs : List Nat,
    byteLess as bs = false → byteLess bs as = false → as = bs := by
  intro as
  induction as with
  | nil =>
    intro bs h1 _
    cases bs with
    | nil => rfl
    | cons b bt => exact absurd h1 (by simp [byteLess])
  | cons a t ih =>
    intro bs h1 h2
    cases bs with
    | nil => exact absurd h2 (by simp [byteLess])
    | cons b bt =>
      simp only [byteLess] at h1 h2
      by_cases hab : a < b
      · rw [if_pos hab] at h1
        exact absurd h1 (by simp)
      · by_cases hba : b < a
        · rw [if_pos hba] at h2
          exact absurd h2 (by simp)
        · have hae : a = b := by omega
          subst hae
          rw [if_neg hab, if_neg hab] at h1
          rw [if_neg hab, if_neg hab] at h2
          rw [ih bt h1 h2]


/-- Embedding of less (pod.go:169): order blocks by height, breaking ties
by the lexicographic order on hashes. -/
def less (a b : Block) : Bool :=
  if a.height ≠ b.height then decide (a.height < b.height)
  else byteLess a.hash b.hash

/-- Helper: less is irreflexive. -/
lemma less_irrefl (a : Block) : less a a = false := by
  unfold less
  rw [if_neg (by simp)]
  exact byteLess_irrefl a.hash

/-- Helper: less is transitive. -/
lemma less_trans (a b c : Block) (h1 : less a b = true) (h2 : less b c = true) :
    less a c = true := by
  unfold less at h1 h2 ⊢
  by_cases hab : a.height = b.height
  · rw [if_neg (by simpa using hab)] at h1
    by_cases hbc : b.height = c.height
    · rw [if_neg (by simpa using hbc)] at h2
      rw [if_neg (by simp; omega), byteLess_trans a.hash b.hash c.hash h1 h2]
    · rw [if_pos (by simpa using hbc)] at h2
      rw [if_pos (by simp; omega)]
      simp only [decide_eq_true_eq] at h2 ⊢
      omega
  · rw [if_pos (by simpa using hab)] at h1
    simp only [decide_eq_true_eq] at h1
    by_cases hbc : b.height = c.height
    · rw [if_pos (by simp; omega)]
      simp only [decide_eq_true_eq]
      omega
    · rw [if_pos (by simpa using hbc)] at h2
      simp only [decide_eq_true_eq] at h2
      rw [if_pos (by simp; omega)]
      simp only [decide_eq_true_eq]
      omega

/-- Helper: blocks neither of which is below the other agree on height
and hash. -/
lemma less_tie (a b : Block) (h1 : less a b = false) (h2 : less b a = false) :
    a.height = b.height ∧ a.hash = b.hash := by
  unfold less at h1 h2
  by_cases hab : a.height = b.height
  · rw [if_neg (by simpa using hab)] at h1
    rw [if_neg (by simp; omega)] at h2
    exact ⟨hab, byteLess_asymm_eq a.hash b.hash h1 h2⟩
  · rw [if_pos (by simpa using hab)] at h1
    rw [if_pos (by simp; omega)] at h2
    simp only [decide_eq_false_iff_not] at h1 h2
    omega

/-- Helper: less only inspects height and hash of its right argument. -/
lemma less_congr_right (x a b : Block) (hh : a.height = b.height)
    (hs : a.hash = b.hash) : less x a = less x b := by
  unfold less
  rw [hh, hs]

/-- One step of the ForkChoice scan over detached tail blocks
(pod.go:185): keep the larger block under less. -/
def forkStep (acc v : Block) : Block := if less acc v then v else acc

/-- Helper: the scan result is never below its starting accumulator. -/
lemma foldl_forkStep_ge_acc : ∀ (l : List Block) (acc : Block),
    less (List.foldl forkStep acc l) acc = false := by
  intro l
  induction l with
  | nil => intro acc; exact less_irrefl acc
  | cons v t ih =>
    intro acc
    simp only [List.foldl_cons, forkStep]
    by_cases h : less acc v = true
    · rw [if_pos h]
      cases hlt : less (List.foldl forkStep v t) acc
      · rfl
      · have htr := less_trans _ _ _ hlt h
        rw [ih v] at htr
        exact absurd htr (by simp)
    · rw [if_neg h]
      exact ih acc

/-- Helper: the scan result is the accumulator or one of the scanned
blocks. -/
lemma foldl_forkStep_mem : ∀ (l : List Block) (acc : Block),
    List.foldl forkStep acc l = acc ∨ List.foldl forkStep acc l ∈ l := by
  intro l
  induction l with
  | nil => intro acc; exact Or.inl rfl
  | cons v t ih =>
    intro acc
    simp only [List.foldl_cons, forkStep]
    by_cases h : less acc v = true
    · rw [if_pos h]
      rcases ih v with h1 | h1
      · exact Or.inr (by rw [h1]; exact List.mem_cons_self v t)
      · exact Or.inr (List.mem_cons_of_mem v h1)
    · rw [if_neg h]
      rcases ih acc with h1 | h1
      · exact Or.inl h1
      · exact Or.inr (List.mem_cons_of_mem v h1)

/-- Helper: the scan result is never below any scanned block. -/
lemma foldl_forkStep_max : ∀ (l : List Block) (acc x : Block), x ∈ l →
    less (List.foldl forkStep acc l) x = false := by
  intro l
  induction l with
  | nil => intro acc x hx; cases hx
  | cons v t ih =>
    intro acc x hx
    simp only [List.foldl_cons, forkStep]
    rcases List.mem_cons.mp hx with rfl | hx2
    · by_cases h : less acc x = true
      · rw [if_pos h]
        exact foldl_forkStep_ge_acc t x
      · rw [if_neg h]
        cases hlt : less (List.foldl forkStep acc t) x
        · rfl
        · by_cases hxa : less x acc = true
          · have htr := less_trans _ _ _ hlt hxa
            rw [foldl_forkStep_ge_acc t acc] at htr
            exact absurd htr (by simp)
          · have htie := less_tie acc x (by simpa using h) (by simpa using hxa)
            have hc := less_congr_right (List.foldl forkStep acc t) x acc
              htie.1.symm htie.2.symm
            rw [hc, foldl_forkStep_ge_acc t acc] at hlt
            exact absurd hlt.symm (by simp)
    · by_cases h : less acc v = true
      · rw [if_pos h]
        exact ih v x hx2
      · rw [if_neg h]
        exact ih acc x hx2

/-- Helper: the scan leaves an accumulator that already dominates every
scanned block unchanged. -/
lemma foldl_forkStep_stable : ∀ (l : List Block) (acc : Block),
    (∀ x ∈ l, less acc x = false) → List.foldl forkStep acc l = acc := by
  intro l
  induction l with
  | nil => intro acc _; rfl
  | cons v t ih =>
    intro acc hall
    simp only [List.foldl_cons, forkStep]
    rw [if_neg (by rw [hall v (List.mem_cons_self v t)]; simp)]
    exact ih acc (fun x hx => hall x (List.mem_cons_of_mem v hx))

/-- Modelled from the spec: the slice of core.BlockChain state that
ForkChoice reads and writes — the current tail and the detached tail
blocks; chain.SetTailBlock replaces the tail (core is outside src/). -/
structure ChainState where
  tailBlock : Block
  detachedTailBlocks : List Block
deriving DecidableEq, Repr

/-- Embedding of PoD.ForkChoice (pod.go:177): scan the detached tail
blocks for the maximum under less, starting from the current tail; when
the winner's hash equals the current tail's hash nothing changes,
otherwise it becomes the tail via SetTailBlock. -/
def forkChoice (st : ChainState) : ChainState :=
  let newTailBlock :=
    List.foldl forkStep st.tailBlock st.detachedTailBlocks
  if newTailBlock.hash = st.tailBlock.hash then st
  else { tailBlock := newTailBlock,
         detachedTailBlocks := st.detachedTailBlocks }

/-- Helper: ForkChoice never changes the detached set it scanned. -/
lemma forkChoice_detached (st : ChainState) :
    (forkChoice st).detachedTailBlocks = st.detachedTailBlocks := by
  simp only [forkChoice]
  split <;> rfl

/-- C2: forkChoice sets the tail to a maximum, under less, of the current
tail together with all detached tail blocks (assuming hashes identify
blocks); consequently the new tail is never below the old tail, and
applying forkChoice again on the resulting state changes nothing. -/
theorem forkChoice_spec (st : ChainState)
    (hinj : ∀ a ∈ st.tailBlock :: st.detachedTailBlocks,
      ∀ b ∈ st.tailBlock :: st.detachedTailBlocks, a.hash = b.hash → a = b) :
    ((forkChoice st).tailBlock ∈ st.tailBlock :: st.detachedTailBlocks ∧
      ∀ x ∈ st.tailBlock :: st.detachedTailBlocks,
        less (forkChoice st).tailBlock x = false) ∧
    less (forkChoice st).tailBlock st.tailBlock = false ∧
    forkChoice (forkChoice st) = forkChoice st := by
  have hMmem : List.foldl forkStep st.tailBlock st.detachedTailBlocks ∈
      st.tailBlock :: st.detachedTailBlocks := by
    rcases foldl_forkStep_mem st.detachedTailBlocks st.tailBlock with h | h
    · rw [h]; exact List.mem_cons_self _ _
    · exact List.mem_cons_of_mem _ h
  have hMmax : ∀ x ∈ st.tailBlock :: st.detachedTailBlocks,
      less (List.foldl forkStep st.tailBlock st.detachedTailBlocks) x = false := by
    intro x hx
    rcases List.mem_cons.mp hx with h | hx2
    · rw [h]
      exact foldl_forkStep_ge_acc st.detachedTailBlocks st.tailBlock
    · exact foldl_forkStep_max st.detachedTailBlocks st.tailBlock x hx2
  have htb : (forkChoice st).tailBlock =
      List.foldl forkStep st.tailBlock st.detachedTailBlocks := by
    simp only [forkChoice]
    split
    · next hh =>
      exact hinj st.tailBlock (List.mem_cons_self _ _)
        (List.foldl forkStep st.tailBlock st.detachedTailBlocks) hMmem hh.symm
    · rfl
  have hmax2 : ∀ x ∈ st.tailBlock :: st.detachedTailBlocks,
      less (forkChoice st).tailBlock x = false := by
    intro x hx
    rw [htb]
    exact hMmax x hx
  refine ⟨⟨htb ▸ hMmem, hmax2⟩, hmax2 st.tailBlock (List.mem_cons_self _ _), ?_⟩
  have hstable : List.foldl forkStep (forkChoice st).tailBlock
      (forkChoice st).detachedTailBlocks = (forkChoice st).tailBlock := by
    apply foldl_forkStep_stable
    intro x hx
    rw [forkChoice_detached] at hx
    exact hmax2 x (List.mem_cons_of_mem _ hx)
  have hfix : ∀ s : ChainState,
      List.foldl forkStep s.tailBlock s.detachedTailBlocks = s.tailBlock →
      forkChoice s = s := by
    intro s hs
    simp only [forkChoice, hs]
    simp
  exact hfix (forkChoice st) hstable

/-- C2 (witness): spec scenario S4 — tail 100@0xAA with detached tails
100@0xAB, 101@0x01 and 99@0xFF yields the new tail 101@0x01, is monotone
and idempotent. -/
theorem forkChoice_witness :
    (forkChoice ⟨⟨100, [170], 0, 0, 0, 0, false⟩, [⟨100, [171], 0, 0, 0, 0, false⟩, ⟨101, [1], 0, 0, 0, 0, false⟩, ⟨99, [255], 0, 0, 0, 0, false⟩]⟩).tailBlock =
      ⟨101, [1], 0, 0, 0, 0, false⟩ ∧
    less (forkChoice ⟨⟨100, [170], 0, 0, 0, 0, false⟩, [⟨100, [171], 0, 0, 0, 0, false⟩, ⟨101, [1], 0, 0, 0, 0, false⟩, ⟨99, [255], 0, 0, 0, 0, false⟩]⟩).tailBlock
      ⟨100, [170], 0, 0, 0, 0, false⟩ = false ∧
    forkChoice (forkChoice ⟨⟨100, [170], 0, 0, 0, 0, false⟩, [⟨100, [171], 0, 0, 0, 0, false⟩, ⟨101, [1], 0, 0, 0, 0, false⟩, ⟨99, [255], 0, 0, 0, 0, false⟩]⟩) =
      forkChoice ⟨⟨100, [170], 0, 0, 0, 0, false⟩, [⟨100, [171], 0, 0, 0, 0, false⟩, ⟨101, [1], 0, 0, 0, 0, false⟩, ⟨99, [255], 0, 0, 0, 0, false⟩]⟩ :=
  ⟨by decide,
   (forkChoice_spec ⟨⟨100, [170], 0, 0, 0, 0, false⟩, [⟨100, [171], 0, 0, 0, 0, false⟩, ⟨101, [1], 0, 0, 0, 0, false⟩, ⟨99, [255], 0, 0, 0, 0, false⟩]⟩ (by decide)).2.1,
   (forkChoice_spec ⟨⟨100, [170], 0, 0, 0, 0, false⟩, [⟨100, [171], 0, 0, 0, 0, false⟩, ⟨101, [1], 0, 0, 0, 0, false⟩, ⟨99, [255], 0, 0, 0, 0, false⟩]⟩ (by decide)).2.2⟩

/-- Embedding of the dynasty serial computation used by UpdateLIB
(pod.go:236): timestamp seconds scaled to ms, truncated-divided by the
dynasty interval. -/
def serialOf (ts : Int) : Int := Int.tdiv (ts * SecondInMs) DynastyIntervalInMs

/-- Adding one proposer to the distinct-proposer set tracked by
UpdateLIB (the Go map insert, modelled as a duplicate-free list). -/
def minersInsert (miners : List Nat) (p : Nat) : List Nat :=
  if p ∈ miners then miners else p :: miners

/-- The distinct-proposer set accumulated over a list of blocks in walk
order. -/
def collectMiners (miners : List Nat) (l : List Block) : List Nat :=
  List.foldl (fun acc c => minersInsert acc c.proposer) miners l

/-- Embedding of the backward walk of PoD.UpdateLIB (pod.go:230-260).
The path argument is the sequence of blocks the walk visits, i.e. the
tail followed by successive chain.GetBlock(parent) results (chain storage
is outside src/); an exhausted path models a nil or genesis parent. The
result is the setLib call the walk performs: the new LIB and the
supporting distinct-proposer count, or none when the walk gives up. The
witness broadcast at the top of UpdateLIB does not affect the LIB and is
not modelled. -/
def updateLibWalk (lib : Block) : List Block → List Nat → Int → Option (Block × Nat)
  | [], _, _ => none
  | cur :: rest, miners, dynasty =>
    if cur.hash = lib.hash then none
    else
      let curDynasty := serialOf cur.timestamp
      let miners1 := if curDynasty ≠ dynasty then ([] : List Nat) else miners
      if (cur.height : Int) - (lib.height : Int) <
          (ConsensusSize : Int) - (miners1.length : Int) then none
      else
        let miners2 := minersInsert miners1 cur.proposer
        if ConsensusSize ≤ miners2.length then some (cur, miners2.length)
        else updateLibWalk lib rest miners2 curDynasty

/-- Embedding of PoD.UpdateLIB (pod.go:217): run the walk from the tail
with an empty proposer set and dynasty serial -1. -/
def updateLIB (lib : Block) (path : List Block) : Option (Block × Nat) :=
  updateLibWalk lib path [] (-1)

/-- Decidable predicate: consecutive blocks in the list descend in height
by exactly one (a proper parent chain). -/
def descChain : List Block → Bool
  | [] => true
  | [_] => true
  | a :: b :: t => (a.height == b.height + 1) && descChain (b :: t)

/-- Helper: inserting a proposer grows the set by at most one. -/
lemma minersInsert_length (miners : List Nat) (p : Nat) :
    miners.length ≤ (minersInsert miners p).length ∧
    (minersInsert miners p).length ≤ miners.length + 1 := by
  unfold minersInsert
  split <;> simp

/-- Helper: collecting over a cons first inserts the head proposer. -/
lemma collectMiners_cons (miners : List Nat) (c : Block) (l : List Block) :
    collectMiners miners (c :: l) = collectMiners (minersInsert miners c.proposer) l := rfl

/-- Helper: collecting proposers never shrinks the set. -/
lemma collectMiners_le (l : List Block) :
    ∀ miners : List Nat, miners.length ≤ (collectMiners miners l).length := by
  induction l with
  | nil => intro miners; exact le_refl _
  | cons c t ih =>
    intro miners
    rw [collectMiners_cons]
    exact le_trans (minersInsert_length miners c.proposer).1 (ih _)

/-- Helper: each block adds at most one distinct proposer. -/
lemma collectMiners_ge (l : List Block) :
    ∀ miners : List Nat, (collectMiners miners l).length ≤ miners.length + l.length := by
  induction l with
  | nil => intro miners; simp [collectMiners]
  | cons c t ih =>
    intro miners
    rw [collectMiners_cons]
    calc (collectMiners (minersInsert miners c.proposer) t).length
        ≤ (minersInsert miners c.proposer).length + t.length := ih _
      _ ≤ miners.length + 1 + t.length := by
          have := (minersInsert_length miners c.proposer).2
          omega
      _ = miners.length + (c :: t).length := by simp; omega

/-- Helper: a proper parent chain stays proper after dropping its head. -/
lemma descChain_tail (c : Block) (t : List Block) (h : descChain (c :: t) = true) :
    descChain t = true := by
  cases t with
  | nil => rfl
  | cons d u =>
    unfold descChain at h
    simp only [Bool.and_eq_true] at h
    exact h.2

/-- Helper: in a proper parent chain ending at b, the head sits exactly
its distance-to-b above b. -/
lemma descChain_head_height : ∀ (pre : List Block) (b c : Block) (t : List Block),
    pre ++ [b] = c :: t → descChain (pre ++ [b]) = true →
    c.height = b.height + t.length := by
  intro pre
  induction pre with
  | nil =>
    intro b c t heq _
    simp only [List.nil_append] at heq
    cases heq
    simp
  | cons x xs ih =>
    intro b c t heq hdesc
    simp only [List.cons_append] at heq
    injection heq with h1 h2
    subst h1
    cases hxu : xs ++ [b] with
    | nil => exact absurd hxu (by simp)
    | cons d u =>
      rw [List.cons_append, hxu] at hdesc
      unfold descChain at hdesc
      simp only [Bool.and_eq_true] at hdesc
      have hand := hdesc
      have hd := ih b d u hxu (by rw [hxu]; exact hand.2)
      have hh : x.height = d.height + 1 := by
        have := hand.1
        simp only [beq_iff_eq] at this
        exact this
      have hlen : t.length = u.length + 1 := by
        rw [← h2, hxu]
        simp
      omega

/-- Helper: whenever the walk decides to move the LIB, the chosen block
is strictly higher than the current LIB — the fast-prune guard admits a
move only when the height gap exceeds the missing proposer count. -/
lemma updateLibWalk_mono : ∀ (path : List Block) (lib b : Block) (miners : List Nat)
    (dynasty : Int) (n : Nat),
    miners.length < ConsensusSize →
    updateLibWalk lib path miners dynasty = some (b, n) →
    (lib.height : Int) < (b.height : Int) := by
  intro path
  induction path with
  | nil =>
    intro lib b miners dynasty n _ h
    exact absurd h (by simp [updateLibWalk])
  | cons cur rest ih =>
    intro lib b miners dynasty n hlen h
    simp only [updateLibWalk] at h
    by_cases hh : cur.hash = lib.hash
    · rw [if_pos hh] at h
      exact absurd h (by simp)
    · rw [if_neg hh] at h
      have hm1len : (if serialOf cur.timestamp ≠ dynasty then ([] : List Nat)
          else miners).length < ConsensusSize := by
        split
        · simpa using (by decide : 0 < ConsensusSize)
        · exact hlen
      by_cases hprune : (cur.height : Int) - (lib.height : Int) <
          (ConsensusSize : Int) - ((if serialOf cur.timestamp ≠ dynasty then ([] : List Nat)
            else miners).length : Int)
      · rw [if_pos hprune] at h
        exact absurd h (by simp)
      · rw [if_neg hprune] at h
        by_cases hth : ConsensusSize ≤
            (minersInsert (if serialOf cur.timestamp ≠ dynasty then ([] : List Nat)
              else miners) cur.proposer).length
        · rw [if_pos hth] at h
          rw [Option.some.injEq, Prod.mk.injEq] at h
          obtain ⟨hb, _⟩ := h
          subst hb
          omega
        · rw [if_neg hth] at h
          exact ih lib b _ _ n (by omega) h

/-- Helper: when the walk meets ConsensusSize distinct proposers within
one dynasty serial along a proper chain strictly above the LIB, it stops
exactly at the block contributing the ConsensusSize-th proposer. -/
lemma updateLibWalk_advance (lib b : Block) (s : Int) :
    ∀ (pre : List Block) (miners : List Nat) (dynasty : Int) (rest : List Block),
    (∀ c ∈ pre ++ [b], serialOf c.timestamp = s) →
    (∀ c ∈ pre ++ [b], c.hash ≠ lib.hash) →
    descChain (pre ++ [b]) = true →
    lib.height < b.height →
    (collectMiners miners (pre ++ [b])).length = ConsensusSize →
    (collectMiners miners pre).length < ConsensusSize →
    (dynasty = s ∨ miners = []) →
    updateLibWalk lib (pre ++ [b] ++ rest) miners dynasty = some (b, ConsensusSize) := by
  intro pre
  induction pre with
  | nil =>
    intro miners dynasty rest hser hhash hdesc hlib hcount hprev hdyn
    show updateLibWalk lib (b :: rest) miners dynasty = some (b, ConsensusSize)
    simp only [updateLibWalk]
    rw [if_neg (hhash b (by simp))]
    have hserb : serialOf b.timestamp = s := hser b (by simp)
    have hm1 : (if serialOf b.timestamp ≠ dynasty then ([] : List Nat) else miners) =
        miners := by
      rcases hdyn with h | h
      · rw [hserb, h]
        simp
      · subst h
        split <;> rfl
    rw [hm1]
    have hcount2 : (minersInsert miners b.proposer).length = ConsensusSize := hcount
    have hins := minersInsert_length miners b.proposer
    rw [if_neg (by omega)]
    rw [if_pos (by omega : ConsensusSize ≤ (minersInsert miners b.proposer).length)]
    rw [hcount2]
  | cons cur pcs ih =>
    intro miners dynasty rest hser hhash hdesc hlib hcount hprev hdyn
    show updateLibWalk lib (cur :: (pcs ++ [b] ++ rest)) miners dynasty =
      some (b, ConsensusSize)
    simp only [updateLibWalk]
    rw [if_neg (hhash cur (by simp))]
    have hsercur : serialOf cur.timestamp = s := hser cur (by simp)
    have hm1 : (if serialOf cur.timestamp ≠ dynasty then ([] : List Nat) else miners) =
        miners := by
      rcases hdyn with h | h
      · rw [hsercur, h]
        simp
      · subst h
        split <;> rfl
    rw [hm1]
    have hch : cur.height = b.height + (pcs.length + 1) := by
      have := descChain_head_height (cur :: pcs) b cur (pcs ++ [b]) (by simp) hdesc
      simpa using this
    have hub : (collectMiners miners (cur :: (pcs ++ [b]))).length ≤
        miners.length + (pcs.length + 2) := by
      have := collectMiners_ge (cur :: (pcs ++ [b])) miners
      simp only [List.length_cons, List.length_append, List.length_nil] at this
      omega
    have hcount2 : (collectMiners miners (cur :: (pcs ++ [b]))).length =
        ConsensusSize := hcount
    rw [if_neg (by omega)]
    have hth : (minersInsert miners cur.proposer).length < ConsensusSize := by
      have h1 := collectMiners_le pcs (minersInsert miners cur.proposer)
      have h2 : collectMiners (minersInsert miners cur.proposer) pcs =
          collectMiners miners (cur :: pcs) := rfl
      rw [h2] at h1
      omega
    rw [if_neg (by omega)]
    exact ih (minersInsert miners cur.proposer) (serialOf cur.timestamp) rest
      (fun c hc => hser c (by simp [List.mem_append] at hc ⊢; tauto))
      (fun c hc => hhash c (by simp [List.mem_append] at hc ⊢; tauto))
      (descChain_tail cur (pcs ++ [b]) hdesc)
      hlib
      hcount
      hprev
      (Or.inl hsercur)

/-- C1: updateLIB never moves the LIB backward — any setLib call it makes
targets a block strictly higher than the current LIB; and whenever the
walk from the tail meets at least ConsensusSize distinct proposers within
one dynasty serial (along a proper parent chain above the LIB, none of
the blocks being the LIB), the LIB advances exactly to the block at which
the ConsensusSize-th distinct proposer appears. -/
theorem updateLIB_spec :
    (∀ (lib : Block) (path : List Block) (b : Block) (n : Nat),
      updateLIB lib path = some (b, n) → (lib.height : Int) < (b.height : Int)) ∧
    (∀ (lib b : Block) (s : Int) (pre rest : List Block),
      (∀ c ∈ pre ++ [b], serialOf c.timestamp = s) →
      (∀ c ∈ pre ++ [b], c.hash ≠ lib.hash) →
      descChain (pre ++ [b]) = true →
      lib.height < b.height →
      (collectMiners [] (pre ++ [b])).length = ConsensusSize →
      (collectMiners [] pre).length < ConsensusSize →
      updateLIB lib (pre ++ [b] ++ rest) = some (b, ConsensusSize)) :=
  ⟨fun lib path b n h =>
    updateLibWalk_mono path lib b [] (-1) n (by decide) h,
   fun lib b s pre rest h1 h2 h3 h4 h5 h6 =>
    updateLibWalk_advance lib b s pre [] (-1) rest h1 h2 h3 h4 h5 h6 (Or.inr rfl)⟩

set_option maxRecDepth 100000 in
/-- C1 (witness): a chain of 85 blocks with 85 distinct proposers in one
dynasty above a LIB of height 1 advances the LIB to the block of the
85th distinct proposer, which is higher than the old LIB. -/
theorem updateLIB_witness :
    updateLIB ⟨1, [250], 0, 0, 0, 0, false⟩
        (((List.range 84).map (fun i => ⟨86 - i, [i + 1], 15, i, 15, i, false⟩)) ++
          [⟨2, [200], 15, 84, 15, 84, false⟩] ++ []) =
      some (⟨2, [200], 15, 84, 15, 84, false⟩, ConsensusSize) ∧
    ((1 : Nat) : Int) < ((2 : Nat) : Int) := by
  have h := updateLIB_spec.2 ⟨1, [250], 0, 0, 0, 0, false⟩ ⟨2, [200], 15, 84, 15, 84, false⟩ 0
    ((List.range 84).map (fun i => ⟨86 - i, [i + 1], 15, i, 15, i, false⟩)) []
    (by decide) (by decide) (by decide) (by decide) (by decide) (by decide)
  exact ⟨h, updateLIB_spec.1 ⟨1, [250], 0, 0, 0, 0, false⟩
    (((List.range 84).map (fun i => ⟨86 - i, [i + 1], 15, i, 15, i, false⟩)) ++
      [⟨2, [200], 15, 84, 15, 84, false⟩] ++ []) ⟨2, [200], 15, 84, 15, 84, false⟩ ConsensusSize h⟩

end Pod
